import Mathlib

/-!
Verification of the ingestion pipeline of the youth-news monitor
(`src/scraper.py`, `src/config.py`).

Texts are modelled as `List Char` (the character sequence of a Python
`str`).  Python's `str.lower` is modelled on the alphabet that actually
occurs at this boundary: ASCII letters plus the accented Spanish letters
used in the configuration tables.  File and HTTP boundaries are modelled
by explicit inputs (a snapshot of the candidates each source surfaces,
and an optional in-memory sheet for the Excel store).
-/

/-- The whitespace class of Python's regex `\s` as it applies here
(ASCII whitespace characters). -/
def pyIsSpace (c : Char) : Bool :=
  c == ' ' || c == '\t' || c == '\n' || c == '\r' ||
  c == Char.ofNat 11 || c == Char.ofNat 12

/-- Python `str.lower` on a single character, restricted to ASCII plus the
accented Spanish letters relevant to the configuration tables. -/
def pyToLower (c : Char) : Char :=
  if 'A' ≤ c ∧ c ≤ 'Z' then Char.ofNat (c.toNat + 32)
  else if c = 'Á' then 'á'
  else if c = 'É' then 'é'
  else if c = 'Í' then 'í'
  else if c = 'Ó' then 'ó'
  else if c = 'Ú' then 'ú'
  else if c = 'Ñ' then 'ñ'
  else if c = 'Ü' then 'ü'
  else c

/-- Python `str.lower` on a whole text. -/
def pyLower (l : List Char) : List Char := l.map pyToLower

/-- `startsWithL needle hay`: `hay` begins with `needle`. -/
def startsWithL : List Char → List Char → Bool
  | [], _ => true
  | _ :: _, [] => false
  | a :: as, b :: bs => a == b && startsWithL as bs

/-- `containsSubL needle hay`: `needle` occurs as a contiguous substring of
`hay` (Python's `needle in hay` on strings). -/
def containsSubL : List Char → List Char → Bool
  | needle, [] => startsWithL needle []
  | needle, c :: rest => startsWithL needle (c :: rest) || containsSubL needle rest

/-- `TERMINOS_JUVENTUD` from `src/config.py`, in declared order. -/
def TERMINOS_JUVENTUD : List (List Char) :=
  ["juventud".data, "jóvenes".data, "jovenes".data, "adolescentes".data,
   "adolescencia".data, "menor de edad".data, "menores de edad".data,
   "pandillas".data, "idipron".data, "plataformas juveniles".data,
   "primera infancia".data, "niños".data, "niñas".data, "infancia".data,
   "juvenil".data, "juveniles".data, "estudiantes".data, "colegios".data,
   "escolar".data]

/-- `contiene_terminos_juventud` from `src/scraper.py`: empty text is not
relevant; otherwise some configured term occurs (lower-cased) inside the
lower-cased text. -/
def contiene_terminos_juventud (texto : List Char) : Bool :=
  if texto.isEmpty then false
  else TERMINOS_JUVENTUD.any fun termino => containsSubL (pyLower termino) (pyLower texto)

/-- `CIUDADES_COLOMBIA` from `src/config.py`: the ordered association list
from lower-cased city-name variants to canonical display names, ending with
the generic entry mapping "colombia" to "Colombia". -/
def CIUDADES_COLOMBIA : List (List Char × List Char) :=
  [("bogotá".data, "Bogotá".data), ("bogota".data, "Bogotá".data),
   ("medellín".data, "Medellín".data), ("medellin".data, "Medellín".data),
   ("cali".data, "Cali".data), ("barranquilla".data, "Barranquilla".data),
   ("cartagena".data, "Cartagena".data), ("bucaramanga".data, "Bucaramanga".data),
   ("pereira".data, "Pereira".data), ("manizales".data, "Manizales".data),
   ("santa marta".data, "Santa Marta".data), ("ibagué".data, "Ibagué".data),
   ("ibague".data, "Ibagué".data), ("cúcuta".data, "Cúcuta".data),
   ("cucuta".data, "Cúcuta".data), ("villavicencio".data, "Villavicencio".data),
   ("pasto".data, "Pasto".data), ("neiva".data, "Neiva".data),
   ("armenia".data, "Armenia".data), ("montería".data, "Montería".data),
   ("monteria".data, "Montería".data), ("valledupar".data, "Valledupar".data),
   ("popayán".data, "Popayán".data), ("popayan".data, "Popayán".data),
   ("tunja".data, "Tunja".data), ("sincelejo".data, "Sincelejo".data),
   ("florencia".data, "Florencia".data), ("quibdó".data, "Quibdó".data),
   ("quibdo".data, "Quibdó".data), ("riohacha".data, "Riohacha".data),
   ("yopal".data, "Yopal".data), ("leticia".data, "Leticia".data),
   ("mocoa".data, "Mocoa".data), ("arauca".data, "Arauca".data),
   ("mitú".data, "Mitú".data), ("mitu".data, "Mitú".data),
   ("puerto carreño".data, "Puerto Carreño".data),
   ("san andrés".data, "San Andrés".data), ("san andres".data, "San Andrés".data),
   ("inírida".data, "Inírida".data), ("inirida".data, "Inírida".data),
   ("colombia".data, "Colombia".data)]

/-- The loop body of `detectar_ciudad`: walk the table in declared order and
return the first entry whose key occurs in the lower-cased text, skipping
(continuing past) entries whose canonical name is the generic "Colombia". -/
def buscar_ciudad (tabla : List (List Char × List Char)) (texto_lower : List Char) :
    Option (List Char) :=
  match tabla with
  | [] => none
  | par :: rest =>
    if containsSubL par.1 texto_lower then
      if par.2 = "Colombia".data then buscar_ciudad rest texto_lower
      else some par.2
    else buscar_ciudad rest texto_lower

/-- `detectar_ciudad` from `src/scraper.py`, generalized over the city table
(the source reads the table from a module-level constant). -/
def detectar_ciudad_en (tabla : List (List Char × List Char)) (texto : List Char) :
    List Char :=
  if texto.isEmpty then "Sin identificar".data
  else
    match buscar_ciudad tabla (pyLower texto) with
    | some nombre => nombre
    | none =>
      if containsSubL "colombia".data (pyLower texto) then "Colombia".data
      else "Sin identificar".data

/-- `detectar_ciudad` from `src/scraper.py`, using the configured table. -/
def detectar_ciudad (texto : List Char) : List Char :=
  detectar_ciudad_en CIUDADES_COLOMBIA texto

/-- `re.sub(r'\s+', ' ', texto)`: every maximal run of whitespace becomes a
single space.  The flag records whether the previous character already
belonged to a whitespace run being replaced. -/
def subWS : Bool → List Char → List Char
  | _, [] => []
  | enRacha, c :: rest =>
    if pyIsSpace c then
      if enRacha then subWS true rest
      else ' ' :: subWS true rest
    else c :: subWS false rest

/-- Python `str.strip`, left side: drop leading whitespace. -/
def lstripWS : List Char → List Char
  | [] => []
  | c :: rest => if pyIsSpace c then lstripWS rest else c :: rest

/-- Python `str.strip`, right side: drop trailing whitespace. -/
def rstripWS : List Char → List Char
  | [] => []
  | c :: rest =>
    let r := rstripWS rest
    if r.isEmpty && pyIsSpace c then [] else c :: r

/-- Python `str.strip`: drop leading and trailing whitespace. -/
def stripWS (l : List Char) : List Char := rstripWS (lstripWS l)

/-- `limpiar_texto` from `src/scraper.py`: empty input stays empty;
otherwise collapse whitespace runs to single spaces and strip the ends. -/
def limpiar_texto (texto : List Char) : List Char :=
  if texto.isEmpty then [] else stripWS (subWS false texto)

/-- `texto.rsplit(' ', 1)[0]`: the part of the text before its last space
character, or the whole text if it has no space. -/
def beforeLastSpace : List Char → List Char
  | [] => []
  | c :: rest =>
    if rest.contains ' ' then c :: beforeLastSpace rest
    else if c == ' ' then []
    else c :: beforeLastSpace rest

/-- `obtener_resumen` from `src/scraper.py`: normalize, return unchanged if
within the bound, otherwise truncate to the bound, trim back to the last
space, and append the ellipsis marker. -/
def obtener_resumen (texto : List Char) (max_chars : Nat) : List Char :=
  let t := limpiar_texto texto
  if t.length ≤ max_chars then t
  else beforeLastSpace (t.take max_chars) ++ "...".data

/-- The first character, if any, is not whitespace. -/
def headNonWS : List Char → Bool
  | [] => true
  | c :: _ => !pyIsSpace c

/-- The last character, if any, is not whitespace. -/
def lastNonWS : List Char → Bool
  | [] => true
  | [c] => !pyIsSpace c
  | _ :: c :: rest => lastNonWS (c :: rest)

/-- Normal form of collapsed text: every whitespace character is a plain
space and is followed by a non-whitespace character. -/
def okRun : List Char → Bool
  | [] => true
  | c :: rest => (!pyIsSpace c || (c == ' ' && headNonWS rest)) && okRun rest

example : limpiar_texto "  hola \n\t mundo  ".data = "hola mundo".data := by decide
example : contiene_terminos_juventud "Los ESTUDIANTES marchan".data = true := by decide
example : contiene_terminos_juventud "partido de fútbol".data = false := by decide
example : detectar_ciudad "jóvenes en medellín, colombia".data = "Medellín".data := by decide
example : detectar_ciudad "bogotá medellín colombia".data = "Bogotá".data := by decide
example : detectar_ciudad "noticias de colombia".data = "Colombia".data := by decide
example : detectar_ciudad "".data = "Sin identificar".data := by decide
example : obtener_resumen "uno dos tres".data 7 = "uno...".data := by decide
example : obtener_resumen "unodostres".data 5 = "unodo...".data := by decide

/-- One persisted news record (a row of the Excel store, columns
`fecha, titulo, fuente, ciudad, url, resumen`). -/
structure Noticia where
  fecha : List Char
  titulo : List Char
  fuente : List Char
  ciudad : List Char
  url : List Char
  resumen : List Char
deriving DecidableEq

/-- A raw candidate extracted from a source page before the relevance
filter: raw title, raw summary paragraph, resolved link. -/
structure Candidato where
  titulo : List Char
  resumen : List Char
  href : List Char
deriving DecidableEq

/-- The record a source scraper builds from an admitted candidate
(the body of the `noticias.append({...})` call in every `scrape_*`
function): normalized title, city from the concatenated raw
title-space-summary text, summary only when a raw summary was present. -/
def mkNoticia (hoy fuente : List Char) (c : Candidato) : Noticia :=
  { fecha := hoy
    titulo := limpiar_texto c.titulo
    fuente := fuente
    ciudad := detectar_ciudad (c.titulo ++ ' ' :: c.resumen)
    url := c.href
    resumen := if c.resumen.isEmpty then [] else obtener_resumen c.resumen 250 }

/-- The per-candidate loop shared by every `scrape_*` function: a candidate
is kept exactly when `contiene_terminos_juventud` accepts its raw title or
its raw summary. -/
def procesarCandidatos (hoy fuente : List Char) : List Candidato → List Noticia
  | [] => []
  | c :: rest =>
    if contiene_terminos_juventud c.titulo || contiene_terminos_juventud c.resumen then
      mkNoticia hoy fuente c :: procesarCandidatos hoy fuente rest
    else procesarCandidatos hoy fuente rest

/-- The inner loop of `ejecutar_scraping` over one source's results: keep a
record when its url is not yet known, and record the url as known.  Returns
the admitted records of this source and the grown url set. -/
def filtrarNuevas : List Noticia → List (List Char) → List Noticia × List (List Char)
  | [], urls => ([], urls)
  | n :: rest, urls =>
    if n.url ∈ urls then filtrarNuevas rest urls
    else
      let r := filtrarNuevas rest (n.url :: urls)
      (n :: r.1, r.2)

/-- The outer loop of `ejecutar_scraping` over the sources, threading the
known-url set; the per-source admitted lists are appended in source order
(the source appends them to one shared `nuevas_noticias` list). -/
def recorrerFuentes : List (List Noticia) → List (List Char) → List Noticia × List (List Char)
  | [], urls => ([], urls)
  | f :: fs, urls =>
    let r := filtrarNuevas f urls
    let s := recorrerFuentes fs r.2
    (r.1 ++ s.1, s.2)

/-- `df.drop_duplicates(subset=['url'], keep='first')`: keep the first
record seen for each url (urls in `vistos` count as already seen). -/
def dropDuplicatesByUrl : List Noticia → List (List Char) → List Noticia
  | [], _ => []
  | n :: rest, vistos =>
    if n.url ∈ vistos then dropDuplicatesByUrl rest vistos
    else n :: dropDuplicatesByUrl rest (n.url :: vistos)

/-- Lexicographic strict order on texts by character code, the string order
pandas uses for `sort_values('fecha', ...)`. -/
def strLtL : List Char → List Char → Bool
  | [], [] => false
  | [], _ :: _ => true
  | _ :: _, [] => false
  | a :: as, b :: bs => if a = b then strLtL as bs else decide (a < b)

/-- The sort key relation of `sort_values('fecha', ascending=False)`:
`a` may come before `b` when `a.fecha` is not smaller than `b.fecha`. -/
def descFecha (a b : Noticia) : Prop := strLtL a.fecha b.fecha = false

instance : DecidableRel descFecha := fun _ _ => inferInstanceAs (Decidable (_ = false))

/-- The records `ejecutar_scraping` admits in one run, given the loaded
store and the per-source candidate-record snapshot (one list per source, in
the configured source order; a source whose fetch failed contributes `[]`,
since its `scrape_*` function then returns an empty list). -/
def nuevasDe (df_existente : List Noticia) (fuentes : List (List Noticia)) : List Noticia :=
  (recorrerFuentes fuentes (df_existente.map fun n => n.url)).1

/-- `ejecutar_scraping` from `src/scraper.py` at the level the claims live:
load → per-source url-gated admission → concatenate existing records first
→ defensive first-wins dedup by url → sort by capture date descending →
persist.  Returns the persisted record list and the newly-added count.
(When no record is admitted the source keeps `df_existente` unchanged,
which coincides with concatenating the empty list.) -/
def ejecutar_scraping (df_existente : List Noticia) (fuentes : List (List Noticia)) :
    List Noticia × Nat :=
  let nuevas := nuevasDe df_existente fuentes
  let df_concat := df_existente ++ nuevas
  let df_dedup := dropDuplicatesByUrl df_concat []
  (List.insertionSort descFecha df_dedup, nuevas.length)

/-- The in-memory content of an existing Excel store file: its rows, and
whether the file actually carries the `ciudad` column (old files lack it;
for those the `ciudad` field of `filas` is not meaningful and the loader
overwrites it). -/
structure Hoja where
  filas : List Noticia
  tiene_ciudad : Bool

/-- `cargar_excel_existente` from `src/scraper.py`, with the file-system
boundary made explicit: `none` models a nonexistent store file.  A file
lacking the `ciudad` column gets that column synthesized as the sentinel
for every row (`df['ciudad'] = "Sin identificar"`). -/
def cargar_excel_existente : Option Hoja → List Noticia
  | none => []
  | some hoja =>
    if hoja.tiene_ciudad then hoja.filas
    else hoja.filas.map fun n => { n with ciudad := "Sin identificar".data }

/-- Concrete example record: an old store row. -/
def nVieja : Noticia :=
  { fecha := "2024-01-01".data, titulo := "titular viejo".data,
    fuente := "Pulzo".data, ciudad := "Bogotá".data,
    url := "http://ejemplo/1".data, resumen := [] }

/-- Concrete example record: a candidate sharing `nVieja`'s url but with a
different title. -/
def nNueva : Noticia :=
  { fecha := "2026-10-12".data, titulo := "titular nuevo".data,
    fuente := "Blu Radio".data, ciudad := "Cali".data,
    url := "http://ejemplo/1".data, resumen := [] }

/-- Concrete example record: a candidate with a fresh url. -/
def nFresca : Noticia :=
  { fecha := "2026-10-12".data, titulo := "jóvenes en cali".data,
    fuente := "Blu Radio".data, ciudad := "Cali".data,
    url := "http://ejemplo/2".data, resumen := [] }



theorem containsSubL_nil (n : List Char) : containsSubL n [] = n.isEmpty := by
  cases n <;> rfl

theorem containsSubL_nil_needle (l : List Char) : containsSubL [] l = true := by
  induction l with
  | nil => rfl
  | cons c rest ih => simp [containsSubL, startsWithL]

theorem startsWithL_append (n : List Char) :
    ∀ h h' : List Char, startsWithL n h = true → startsWithL n (h ++ h') = true := by
  induction n with
  | nil => intro h h' _; rfl
  | cons a as ih =>
    intro h h' hs
    cases h with
    | nil => simp [startsWithL] at hs
    | cons b bs =>
      simp only [startsWithL, Bool.and_eq_true] at hs
      simp only [List.cons_append, startsWithL, Bool.and_eq_true]
      exact ⟨hs.1, ih bs h' hs.2⟩

theorem containsSubL_append_left (n : List Char) :
    ∀ h h' : List Char, containsSubL n h = true → containsSubL n (h ++ h') = true := by
  intro h
  induction h with
  | nil =>
    intro h' hc
    rw [containsSubL_nil] at hc
    cases n with
    | nil => exact containsSubL_nil_needle h'
    | cons a as => simp [List.isEmpty] at hc
  | cons c hs ih =>
    intro h' hc
    simp only [containsSubL, Bool.or_eq_true] at hc
    rcases hc with hc | hc
    · have := startsWithL_append n (c :: hs) h' hc
      simp only [List.cons_append, containsSubL, Bool.or_eq_true]
      left
      simpa using this
    · simp only [List.cons_append, containsSubL, Bool.or_eq_true]
      exact Or.inr (ih h' hc)

theorem containsSubL_append_right (n : List Char) :
    ∀ h h' : List Char, containsSubL n h' = true → containsSubL n (h ++ h') = true := by
  intro h
  induction h with
  | nil => intro h' hc; simpa using hc
  | cons c hs ih =>
    intro h' hc
    simp only [List.cons_append, containsSubL, Bool.or_eq_true]
    exact Or.inr (ih h' hc)

theorem contiene_ne_nil {t : List Char} (h : contiene_terminos_juventud t = true) :
    t ≠ [] := by
  intro he
  subst he
  simp [contiene_terminos_juventud, List.isEmpty] at h

/-- Every configured term is nonempty after lower-casing. -/
theorem terminos_nonempty :
    ∀ termino ∈ TERMINOS_JUVENTUD, (pyLower termino).isEmpty = false := by decide

theorem contiene_iff (t : List Char) :
    contiene_terminos_juventud t = true ↔
      ∃ termino ∈ TERMINOS_JUVENTUD,
        containsSubL (pyLower termino) (pyLower t) = true := by
  cases t with
  | nil =>
    simp only [contiene_terminos_juventud, List.isEmpty]
    constructor
    · intro h; cases h
    · rintro ⟨termino, hmem, hsub⟩
      have h1 := terminos_nonempty termino hmem
      rw [show pyLower ([] : List Char) = [] from rfl, containsSubL_nil] at hsub
      rw [hsub] at h1
      cases h1
  | cons a as =>
    simp [contiene_terminos_juventud, List.isEmpty, List.any_eq_true]

theorem contiene_append_left {t : List Char} (r : List Char)
    (h : contiene_terminos_juventud t = true) :
    contiene_terminos_juventud (t ++ r) = true := by
  rw [contiene_iff] at h ⊢
  obtain ⟨termino, hmem, hsub⟩ := h
  refine ⟨termino, hmem, ?_⟩
  simp only [pyLower, List.map_append]
  exact containsSubL_append_left _ _ _ hsub

theorem contiene_append_right (t : List Char) {r : List Char}
    (h : contiene_terminos_juventud r = true) :
    contiene_terminos_juventud (t ++ r) = true := by
  rw [contiene_iff] at h ⊢
  obtain ⟨termino, hmem, hsub⟩ := h
  refine ⟨termino, hmem, ?_⟩
  simp only [pyLower, List.map_append]
  exact containsSubL_append_right _ _ _ hsub

/-- C4: `contiene_terminos_juventud t` is true exactly when some configured
term occurs, case-insensitively, as a substring of `t`; for the empty text
it is false. -/
theorem contiene_terminos_caracterizacion (t : List Char) :
    (contiene_terminos_juventud t = true ↔
      ∃ termino ∈ TERMINOS_JUVENTUD,
        containsSubL (pyLower termino) (pyLower t) = true) ∧
    contiene_terminos_juventud [] = false :=
  ⟨contiene_iff t, rfl⟩

theorem beforeLastSpace_length_le (l : List Char) :
    (beforeLastSpace l).length ≤ l.length := by
  induction l with
  | nil => exact Nat.le_refl 0
  | cons c rest ih =>
    simp only [beforeLastSpace]
    by_cases h1 : rest.contains ' '
    · simp only [h1, if_true, List.length_cons]
      exact Nat.succ_le_succ ih
    · simp only [h1, if_false]
      by_cases h2 : c == ' '
      · simp [h2]
      · simp only [h2, if_false, List.length_cons]
        exact Nat.succ_le_succ ih

/-- C3: `obtener_resumen` normalizes first and returns the normalized text
unchanged when it fits in `max_chars`; otherwise the returned text is a
truncation plus an ellipsis marker, whose length excluding the marker never
exceeds `max_chars`. -/
theorem obtener_resumen_acotado (t : List Char) (m : Nat) :
    ((limpiar_texto t).length ≤ m → obtener_resumen t m = limpiar_texto t) ∧
    (m < (limpiar_texto t).length →
      ∃ s, obtener_resumen t m = s ++ "...".data ∧ s.length ≤ m) := by
  constructor
  · intro h
    simp [obtener_resumen, h]
  · intro h
    have hnot : ¬ (limpiar_texto t).length ≤ m := Nat.not_le.mpr h
    refine ⟨beforeLastSpace ((limpiar_texto t).take m), ?_, ?_⟩
    · simp [obtener_resumen, hnot]
    · calc (beforeLastSpace ((limpiar_texto t).take m)).length
          ≤ ((limpiar_texto t).take m).length := beforeLastSpace_length_le _
        _ ≤ m := by simp

/-- Witness for `obtener_resumen_acotado` at concrete inputs: a text within
the bound comes back normalized, and an over-long text is truncated to at
most the bound plus the marker. -/
theorem obtener_resumen_acotado_witness :
    obtener_resumen "hola mundo".data 250 = limpiar_texto "hola mundo".data ∧
    ∃ s, obtener_resumen "unodostres".data 5 = s ++ "...".data ∧ s.length ≤ 5 :=
  ⟨(obtener_resumen_acotado "hola mundo".data 250).1 (by decide),
   (obtener_resumen_acotado "unodostres".data 5).2 (by decide)⟩
theorem headNonWS_subWS_true (l : List Char) : headNonWS (subWS true l) = true := by
  induction l with
  | nil => rfl
  | cons c rest ih =>
    by_cases h : pyIsSpace c = true
    · simpa [subWS, h] using ih
    · simp only [Bool.not_eq_true] at h
      simp [subWS, h, headNonWS]

theorem okRun_subWS (l : List Char) : ∀ b, okRun (subWS b l) = true := by
  induction l with
  | nil => intro b; rfl
  | cons c rest ih =>
    intro b
    by_cases h : pyIsSpace c = true
    · cases b with
      | true => simpa [subWS, h] using ih true
      | false =>
        simp only [subWS, h, if_true]
        simp only [okRun, Bool.and_eq_true, Bool.or_eq_true]
        refine ⟨?_, ih true⟩
        right
        exact ⟨rfl, headNonWS_subWS_true rest⟩
    · simp only [Bool.not_eq_true] at h
      simp only [subWS, h, Bool.false_eq_true, if_false]
      simp only [okRun, Bool.and_eq_true, Bool.or_eq_true]
      exact ⟨Or.inl (by simp [h]), ih false⟩

theorem subWS_fix (l : List Char) (hok : okRun l = true) :
    subWS false l = l ∧ (headNonWS l = true → subWS true l = l) := by
  induction l with
  | nil => exact ⟨rfl, fun _ => rfl⟩
  | cons c rest ih =>
    simp only [okRun, Bool.and_eq_true] at hok
    obtain ⟨h1, h2⟩ := hok
    obtain ⟨ihf, iht⟩ := ih h2
    constructor
    · by_cases h : pyIsSpace c = true
      · simp only [Bool.or_eq_true, Bool.and_eq_true] at h1
        rcases h1 with h1 | ⟨hcsp, hhd⟩
        · rw [h] at h1; simp at h1
        · have hc : c = ' ' := by simpa using hcsp
          subst hc
          have hsp : pyIsSpace ' ' = true := rfl
          simp [subWS, hsp, iht hhd]
      · simp only [Bool.not_eq_true] at h
        simp [subWS, h, ihf]
    · intro hhd
      simp only [headNonWS, Bool.not_eq_true'] at hhd
      simp [subWS, hhd, ihf]

theorem headNonWS_lstripWS (l : List Char) : headNonWS (lstripWS l) = true := by
  induction l with
  | nil => rfl
  | cons c rest ih =>
    by_cases h : pyIsSpace c = true
    · simpa [lstripWS, h] using ih
    · simp only [Bool.not_eq_true] at h
      simp [lstripWS, h, headNonWS]

theorem lstripWS_fix {l : List Char} (h : headNonWS l = true) : lstripWS l = l := by
  cases l with
  | nil => rfl
  | cons c rest =>
    simp only [headNonWS, Bool.not_eq_true'] at h
    simp [lstripWS, h]

theorem rstripWS_cons (c : Char) (l : List Char) :
    rstripWS (c :: l) =
      if (rstripWS l).isEmpty && pyIsSpace c then [] else c :: rstripWS l := rfl

theorem lastNonWS_rstripWS (l : List Char) : lastNonWS (rstripWS l) = true := by
  induction l with
  | nil => rfl
  | cons c rest ih =>
    rw [rstripWS_cons]
    cases hr : rstripWS rest with
    | nil =>
      by_cases h : pyIsSpace c = true
      · simp [h, lastNonWS]
      · simp only [Bool.not_eq_true] at h
        simp [h, lastNonWS]
    | cons d r =>
      rw [hr] at ih
      have hg : ((d :: r).isEmpty && pyIsSpace c) = false := by simp
      rw [hg]
      simp only [Bool.false_eq_true, if_false]
      simpa [lastNonWS] using ih

theorem headNonWS_rstripWS {l : List Char} (h : headNonWS l = true) :
    headNonWS (rstripWS l) = true := by
  cases l with
  | nil => rfl
  | cons c rest =>
    simp only [headNonWS, Bool.not_eq_true'] at h
    rw [rstripWS_cons]
    have hg : ((rstripWS rest).isEmpty && pyIsSpace c) = false := by
      rw [h]; simp
    rw [hg]
    simp [headNonWS, h]

theorem lastNonWS_lstripWS {l : List Char} (h : lastNonWS l = true) :
    lastNonWS (lstripWS l) = true := by
  induction l with
  | nil => rfl
  | cons c rest ih =>
    by_cases hc : pyIsSpace c = true
    · cases rest with
      | nil => simp [lastNonWS, hc] at h
      | cons d r =>
        simp only [lastNonWS] at h
        simpa [lstripWS, hc] using ih h
    · simp only [Bool.not_eq_true] at hc
      simp [lstripWS, hc, h]

theorem rstripWS_fix {l : List Char} (h : lastNonWS l = true) : rstripWS l = l := by
  induction l with
  | nil => rfl
  | cons c rest ih =>
    cases rest with
    | nil =>
      simp only [lastNonWS, Bool.not_eq_true'] at h
      rw [rstripWS_cons]
      simp [rstripWS, h]
    | cons d r =>
      simp only [lastNonWS] at h
      rw [rstripWS_cons, ih h]
      simp

theorem okRun_lstripWS {l : List Char} (h : okRun l = true) : okRun (lstripWS l) = true := by
  induction l with
  | nil => rfl
  | cons c rest ih =>
    simp only [okRun, Bool.and_eq_true] at h
    by_cases hc : pyIsSpace c = true
    · simpa [lstripWS, hc] using ih h.2
    · simp only [Bool.not_eq_true] at hc
      simp only [lstripWS, hc, Bool.false_eq_true, if_false]
      simp only [okRun, Bool.and_eq_true]
      exact ⟨h.1, h.2⟩

theorem okRun_rstripWS {l : List Char} (h : okRun l = true) : okRun (rstripWS l) = true := by
  induction l with
  | nil => rfl
  | cons c rest ih =>
    simp only [okRun, Bool.and_eq_true] at h
    obtain ⟨h1, h2⟩ := h
    rw [rstripWS_cons]
    by_cases hg : ((rstripWS rest).isEmpty && pyIsSpace c) = true
    · rw [if_pos hg]; rfl
    · rw [if_neg hg]
      simp only [okRun, Bool.and_eq_true, Bool.or_eq_true]
      refine ⟨?_, ih h2⟩
      simp only [Bool.or_eq_true, Bool.and_eq_true] at h1
      rcases h1 with h1 | ⟨hsp, hhd⟩
      · exact Or.inl h1
      · refine Or.inr ⟨hsp, ?_⟩
        cases rest with
        | nil => rfl
        | cons d r =>
          simp only [headNonWS, Bool.not_eq_true'] at hhd
          rw [rstripWS_cons]
          simp [hhd, headNonWS]

/-- C7: `limpiar_texto` is idempotent. -/
theorem limpiar_texto_idempotente (t : List Char) :
    limpiar_texto (limpiar_texto t) = limpiar_texto t := by
  by_cases ht : t.isEmpty = true
  · simp [limpiar_texto, ht]
  · simp only [Bool.not_eq_true] at ht
    have hy : limpiar_texto t = stripWS (subWS false t) := by simp [limpiar_texto, ht]
    rw [hy]
    have hok : okRun (stripWS (subWS false t)) = true :=
      okRun_rstripWS (okRun_lstripWS (okRun_subWS t false))
    have hhd : headNonWS (stripWS (subWS false t)) = true :=
      headNonWS_rstripWS (headNonWS_lstripWS _)
    have hlt : lastNonWS (stripWS (subWS false t)) = true :=
      lastNonWS_rstripWS _
    cases hY : stripWS (subWS false t) with
    | nil => rfl
    | cons a as =>
      rw [hY] at hok hhd hlt
      calc limpiar_texto (a :: as) = stripWS (subWS false (a :: as)) := by
            simp [limpiar_texto]
        _ = stripWS (a :: as) := by rw [(subWS_fix (a :: as) hok).1]
        _ = rstripWS (a :: as) := by rw [stripWS, lstripWS_fix hhd]
        _ = a :: as := rstripWS_fix hlt
theorem buscar_eq_find (tabla : List (List Char × List Char)) (tl : List Char) :
    buscar_ciudad tabla tl =
      Option.map (fun p => p.2)
        (tabla.find? fun p => containsSubL p.1 tl && !(p.2 == "Colombia".data)) := by
  induction tabla with
  | nil => rfl
  | cons par rest ih =>
    by_cases h1 : containsSubL par.1 tl = true
    · by_cases h2 : par.2 = "Colombia".data
      · rw [List.find?_cons_of_neg _ (by simp [h1, h2])]
        simp [buscar_ciudad, h1, h2, ih]
      · rw [List.find?_cons_of_pos _ (by simp [h1, h2])]
        simp [buscar_ciudad, h1, h2]
    · rw [List.find?_cons_of_neg _ (by simp [h1])]
      simp only [Bool.not_eq_true] at h1
      simp [buscar_ciudad, h1, ih]

theorem medellin_ne_nil : ("medellín".data : List Char) ≠ [] := by decide

/-- C2 (amended): `detectar_ciudad` returns the canonical name of the first
table entry, in declared order, whose key occurs in the lower-cased text
and whose canonical name is not the generic "Colombia"; failing that, it
returns "Colombia" exactly when the substring "colombia" occurs, and the
sentinel otherwise.  In particular a text in which "medellín" occurs but in
which neither earlier specific key "bogotá" nor "bogota" occurs is
classified "Medellín" (whether or not "colombia" also occurs). -/
theorem detectar_ciudad_spec (t : List Char) :
    (detectar_ciudad t =
      if t.isEmpty then "Sin identificar".data
      else
        match CIUDADES_COLOMBIA.find?
            (fun p => containsSubL p.1 (pyLower t) && !(p.2 == "Colombia".data)) with
        | some p => p.2
        | none =>
          if containsSubL "colombia".data (pyLower t) then "Colombia".data
          else "Sin identificar".data) ∧
    (containsSubL "medellín".data (pyLower t) = true →
     containsSubL "bogotá".data (pyLower t) = false →
     containsSubL "bogota".data (pyLower t) = false →
     detectar_ciudad t = "Medellín".data) := by
  constructor
  · rw [detectar_ciudad, detectar_ciudad_en, buscar_eq_find]
    by_cases ht : t.isEmpty = true
    · simp [ht]
    · simp only [Bool.not_eq_true] at ht
      rw [ht]
      simp only [Bool.false_eq_true, if_false]
      cases CIUDADES_COLOMBIA.find?
          (fun p => containsSubL p.1 (pyLower t) && !(p.2 == "Colombia".data)) with
      | none => rfl
      | some p => rfl
  · intro hmed hbog1 hbog2
    have htne : t ≠ [] := by
      intro he
      subst he
      rw [show pyLower ([] : List Char) = [] from rfl, containsSubL_nil] at hmed
      exact absurd hmed (by decide)
    have ht : t.isEmpty = false := by
      cases t with
      | nil => exact absurd rfl htne
      | cons a as => rfl
    rw [detectar_ciudad, detectar_ciudad_en, ht]
    simp only [Bool.false_eq_true, if_false]
    rw [buscar_eq_find]
    have hb : CIUDADES_COLOMBIA.find?
        (fun p => containsSubL p.1 (pyLower t) && !(p.2 == "Colombia".data)) =
        some ("medellín".data, "Medellín".data) := by
      rw [CIUDADES_COLOMBIA]
      rw [List.find?_cons_of_neg _ (by simp [hbog1])]
      rw [List.find?_cons_of_neg _ (by simp [hbog2])]
      exact List.find?_cons_of_pos _ (by simp only [hmed, Bool.true_and]; decide)
    rw [hb]
    rfl

/-- C2 counterexample: a text containing both "medellín" and "colombia" is
not classified "Medellín" when an earlier-order specific key also occurs. -/
theorem detectar_ciudad_contraejemplo :
    containsSubL "medellín".data "bogotá medellín colombia".data = true ∧
    containsSubL "colombia".data "bogotá medellín colombia".data = true ∧
    detectar_ciudad "bogotá medellín colombia".data = "Bogotá".data ∧
    detectar_ciudad "bogotá medellín colombia".data ≠ "Medellín".data :=
  ⟨by decide, by decide, by decide, by decide⟩

/-- Witness for `detectar_ciudad_spec`: a concrete text with "medellín" and
"colombia" but no earlier key is classified "Medellín". -/
theorem detectar_ciudad_spec_witness :
    detectar_ciudad "jóvenes de medellín, colombia".data = "Medellín".data :=
  (detectar_ciudad_spec "jóvenes de medellín, colombia".data).2
    (by decide) (by decide) (by decide)

/-- C10: on empty input, `detectar_ciudad` returns the sentinel
"Sin identificar" whatever the city table holds, so the table is never
consulted; the configured classifier does so as well. -/
theorem detectar_ciudad_vacio :
    (∀ tabla, detectar_ciudad_en tabla [] = "Sin identificar".data) ∧
    detectar_ciudad [] = "Sin identificar".data :=
  ⟨fun _ => rfl, rfl⟩
/-- C5 (amended): a candidate is admitted exactly when the relevance
predicate accepts its raw title or its raw summary, each tested separately;
every admitted candidate also satisfies the predicate on the concatenated
title-space-summary text (the converse fails: a term can straddle the
boundary). -/
theorem procesar_candidatos_spec (hoy fuente : List Char) (cands : List Candidato) :
    procesarCandidatos hoy fuente cands =
      (cands.filter fun c =>
        contiene_terminos_juventud c.titulo || contiene_terminos_juventud c.resumen).map
        (mkNoticia hoy fuente) ∧
    ∀ c ∈ cands,
      (contiene_terminos_juventud c.titulo || contiene_terminos_juventud c.resumen) = true →
      contiene_terminos_juventud (c.titulo ++ ' ' :: c.resumen) = true := by
  constructor
  · induction cands with
    | nil => rfl
    | cons c rest ih =>
      by_cases h : (contiene_terminos_juventud c.titulo ||
          contiene_terminos_juventud c.resumen) = true
      · simp [procesarCandidatos, h, List.filter_cons, ih]
      · simp only [Bool.not_eq_true] at h
        simp [procesarCandidatos, h, List.filter_cons, ih]
  · intro c _ hrel
    simp only [Bool.or_eq_true] at hrel
    rcases hrel with h | h
    · exact contiene_append_left (' ' :: c.resumen) h
    · have := contiene_append_right (c.titulo ++ [' ']) h
      simpa [List.append_assoc] using this

/-- C5 counterexample: a candidate whose title "menor de" and summary
"edad" are only jointly relevant (the term "menor de edad" straddles the
boundary) is discarded, although the relevance predicate accepts the
concatenated title-space-summary text. -/
theorem procesar_candidatos_contraejemplo :
    procesarCandidatos "2026-10-12".data "Blu Radio".data
      [{ titulo := "menor de".data, resumen := "edad".data, href := "http://x/1".data }] = [] ∧
    contiene_terminos_juventud ("menor de".data ++ ' ' :: "edad".data) = true :=
  ⟨by decide, by decide⟩

/-- Witness for `procesar_candidatos_spec`: a concrete admitted candidate
whose concatenated text the predicate also accepts. -/
theorem procesar_candidatos_spec_witness :
    procesarCandidatos "2026-10-12".data "Pulzo".data
        [{ titulo := "jóvenes marchan".data, resumen := "".data, href := "http://x/2".data }] =
      (([{ titulo := "jóvenes marchan".data, resumen := "".data,
           href := "http://x/2".data }] : List Candidato).filter fun c =>
        contiene_terminos_juventud c.titulo || contiene_terminos_juventud c.resumen).map
        (mkNoticia "2026-10-12".data "Pulzo".data) ∧
    contiene_terminos_juventud ("jóvenes marchan".data ++ ' ' :: "".data) = true :=
  ⟨(procesar_candidatos_spec "2026-10-12".data "Pulzo".data _).1,
   (procesar_candidatos_spec "2026-10-12".data "Pulzo".data
      [{ titulo := "jóvenes marchan".data, resumen := "".data, href := "http://x/2".data }]).2
      { titulo := "jóvenes marchan".data, resumen := "".data, href := "http://x/2".data }
      (by decide) (by decide)⟩
theorem filtrarNuevas_urls_mono (l : List Noticia) :
    ∀ urls u, u ∈ urls → u ∈ (filtrarNuevas l urls).2 := by
  induction l with
  | nil => intro urls u hu; exact hu
  | cons n rest ih =>
    intro urls u hu
    by_cases h : n.url ∈ urls
    · simpa [filtrarNuevas, h] using ih urls u hu
    · simp only [filtrarNuevas, h, if_false]
      exact ih (n.url :: urls) u (List.mem_cons_of_mem _ hu)

theorem filtrarNuevas_conoce (l : List Noticia) :
    ∀ urls n, n ∈ l → n.url ∈ (filtrarNuevas l urls).2 := by
  induction l with
  | nil => intro urls n hn; cases hn
  | cons m rest ih =>
    intro urls n hn
    by_cases h : m.url ∈ urls
    · rcases List.mem_cons.mp hn with rfl | hn'
      · simpa [filtrarNuevas, h] using filtrarNuevas_urls_mono rest urls _ h
      · simpa [filtrarNuevas, h] using ih urls n hn'
    · simp only [filtrarNuevas, h, if_false]
      rcases List.mem_cons.mp hn with rfl | hn'
      · exact filtrarNuevas_urls_mono rest _ _ (List.mem_cons_self _ _)
      · exact ih _ n hn'

theorem filtrarNuevas_urls_iff (l : List Noticia) :
    ∀ urls u, u ∈ (filtrarNuevas l urls).2 ↔
      u ∈ urls ∨ u ∈ (filtrarNuevas l urls).1.map (fun n => n.url) := by
  induction l with
  | nil => intro urls u; simp [filtrarNuevas]
  | cons n rest ih =>
    intro urls u
    by_cases h : n.url ∈ urls
    · simp only [filtrarNuevas, h, if_true]
      exact ih urls u
    · simp only [filtrarNuevas, h, if_false, List.map_cons, List.mem_cons]
      rw [ih (n.url :: urls) u]
      simp only [List.mem_cons]
      tauto

theorem filtrarNuevas_todo_conocido (l : List Noticia) :
    ∀ urls, (∀ n ∈ l, n.url ∈ urls) → filtrarNuevas l urls = ([], urls) := by
  induction l with
  | nil => intro urls _; rfl
  | cons n rest ih =>
    intro urls h
    have hn : n.url ∈ urls := h n (List.mem_cons_self _ _)
    simp only [filtrarNuevas, hn, if_true]
    exact ih urls (fun m hm => h m (List.mem_cons_of_mem _ hm))

theorem recorrerFuentes_urls_mono (fs : List (List Noticia)) :
    ∀ urls u, u ∈ urls → u ∈ (recorrerFuentes fs urls).2 := by
  induction fs with
  | nil => intro urls u hu; exact hu
  | cons f rest ih =>
    intro urls u hu
    simp only [recorrerFuentes]
    exact ih _ u (filtrarNuevas_urls_mono f urls u hu)

theorem recorrerFuentes_conoce (fs : List (List Noticia)) :
    ∀ urls f n, f ∈ fs → n ∈ f → n.url ∈ (recorrerFuentes fs urls).2 := by
  induction fs with
  | nil => intro urls f n hf _; cases hf
  | cons g rest ih =>
    intro urls f n hf hn
    simp only [recorrerFuentes]
    rcases List.mem_cons.mp hf with rfl | hf'
    · exact recorrerFuentes_urls_mono rest _ _ (filtrarNuevas_conoce f urls n hn)
    · exact ih _ f n hf' hn

theorem recorrerFuentes_urls_iff (fs : List (List Noticia)) :
    ∀ urls u, u ∈ (recorrerFuentes fs urls).2 ↔
      u ∈ urls ∨ u ∈ (recorrerFuentes fs urls).1.map (fun n => n.url) := by
  induction fs with
  | nil => intro urls u; simp [recorrerFuentes]
  | cons f rest ih =>
    intro urls u
    simp only [recorrerFuentes, List.map_append, List.mem_append]
    rw [ih]
    rw [filtrarNuevas_urls_iff]
    tauto

theorem recorrerFuentes_todo_conocido (fs : List (List Noticia)) :
    ∀ urls, (∀ f ∈ fs, ∀ n ∈ f, n.url ∈ urls) → recorrerFuentes fs urls = ([], urls) := by
  induction fs with
  | nil => intro urls _; rfl
  | cons f rest ih =>
    intro urls h
    have h1 : filtrarNuevas f urls = ([], urls) :=
      filtrarNuevas_todo_conocido f urls (h f (List.mem_cons_self _ _))
    have h2 := ih urls (fun g hg => h g (List.mem_cons_of_mem _ hg))
    simp [recorrerFuentes, h1, h2]

theorem dropDup_primera (l : List Noticia) :
    ∀ vistos n, n ∈ dropDuplicatesByUrl l vistos →
      ¬ n.url ∈ vistos ∧ l.find? (fun m => m.url == n.url) = some n := by
  induction l with
  | nil => intro vistos n hn; cases hn
  | cons c rest ih =>
    intro vistos n hn
    by_cases hc : c.url ∈ vistos
    · simp only [dropDuplicatesByUrl, hc, if_true] at hn
      obtain ⟨h1, h2⟩ := ih vistos n hn
      refine ⟨h1, ?_⟩
      rw [List.find?_cons_of_neg]
      · exact h2
      · simp only [beq_iff_eq]
        intro he
        exact h1 (he ▸ hc)
    · simp only [dropDuplicatesByUrl, hc, if_false] at hn
      rcases List.mem_cons.mp hn with rfl | hn'
      · refine ⟨hc, ?_⟩
        rw [List.find?_cons_of_pos]
        simp
      · obtain ⟨h1, h2⟩ := ih _ n hn'
        have hne : n.url ≠ c.url := fun he => h1 (by rw [he]; exact List.mem_cons_self _ _)
        refine ⟨fun hv => h1 (List.mem_cons_of_mem _ hv), ?_⟩
        rw [List.find?_cons_of_neg]
        · exact h2
        · simp only [beq_iff_eq]
          exact fun he => hne he.symm

theorem dropDup_nodup (l : List Noticia) :
    ∀ vistos, ((dropDuplicatesByUrl l vistos).map (fun n => n.url)).Nodup := by
  induction l with
  | nil => intro vistos; simp [dropDuplicatesByUrl]
  | cons c rest ih =>
    intro vistos
    by_cases hc : c.url ∈ vistos
    · simpa [dropDuplicatesByUrl, hc] using ih vistos
    · simp only [dropDuplicatesByUrl, hc, if_false, List.map_cons, List.nodup_cons]
      refine ⟨?_, ih _⟩
      intro hmem
      obtain ⟨m, hm, hmu⟩ := List.mem_map.mp hmem
      obtain ⟨h1, _⟩ := dropDup_primera rest _ m hm
      exact h1 (by rw [hmu]; exact List.mem_cons_self _ _)

theorem dropDup_urls (l : List Noticia) :
    ∀ vistos u, ¬ u ∈ vistos →
      (u ∈ (dropDuplicatesByUrl l vistos).map (fun n => n.url) ↔
       u ∈ l.map (fun n => n.url)) := by
  induction l with
  | nil => intro vistos u _; simp [dropDuplicatesByUrl]
  | cons c rest ih =>
    intro vistos u hu
    by_cases hc : c.url ∈ vistos
    · have hne : u ≠ c.url := fun he => hu (he ▸ hc)
      simp only [dropDuplicatesByUrl, hc, if_true, List.map_cons, List.mem_cons]
      rw [ih vistos u hu]
      constructor
      · exact Or.inr
      · rintro (he | hm)
        · exact absurd he hne
        · exact hm
    · simp only [dropDuplicatesByUrl, hc, if_false, List.map_cons, List.mem_cons]
      by_cases he : u = c.url
      · simp [he]
      · have hu' : ¬ u ∈ c.url :: vistos := by
          intro hx
          rcases List.mem_cons.mp hx with h | h
          · exact he h
          · exact hu h
        rw [ih _ u hu']

theorem dropDup_fix (l : List Noticia) :
    ∀ vistos, (l.map (fun n => n.url)).Nodup → (∀ n ∈ l, ¬ n.url ∈ vistos) →
      dropDuplicatesByUrl l vistos = l := by
  induction l with
  | nil => intro vistos _ _; rfl
  | cons c rest ih =>
    intro vistos hnd h
    have hc : ¬ c.url ∈ vistos := h c (List.mem_cons_self _ _)
    simp only [List.map_cons, List.nodup_cons] at hnd
    simp only [dropDuplicatesByUrl, hc, if_false]
    have hrest : ∀ n ∈ rest, ¬ n.url ∈ c.url :: vistos := by
      intro n hn hx
      rcases List.mem_cons.mp hx with he | hv
      · exact hnd.1 (List.mem_map.mpr ⟨n, hn, he⟩)
      · exact h n (List.mem_cons_of_mem _ hn) hv
    rw [ih (c.url :: vistos) hnd.2 hrest]

theorem ejecutar_fst (df : List Noticia) (fs : List (List Noticia)) :
    (ejecutar_scraping df fs).1 =
      List.insertionSort descFecha
        (dropDuplicatesByUrl (df ++ nuevasDe df fs) []) := rfl

theorem ejecutar_snd (df : List Noticia) (fs : List (List Noticia)) :
    (ejecutar_scraping df fs).2 = (nuevasDe df fs).length := rfl

theorem ejecutar_nodup (df : List Noticia) (fs : List (List Noticia)) :
    ((ejecutar_scraping df fs).1.map (fun n => n.url)).Nodup := by
  rw [ejecutar_fst]
  have hperm :=
    (List.perm_insertionSort descFecha
      (dropDuplicatesByUrl (df ++ nuevasDe df fs) [])).map (fun n => n.url)
  rw [hperm.nodup_iff]
  exact dropDup_nodup _ []

theorem ejecutar_primera (df : List Noticia) (fs : List (List Noticia)) :
    ∀ n ∈ (ejecutar_scraping df fs).1,
      (df ++ nuevasDe df fs).find? (fun m => m.url == n.url) = some n := by
  intro n hn
  rw [ejecutar_fst, List.mem_insertionSort] at hn
  exact (dropDup_primera _ [] n hn).2

theorem ejecutar_completa (df : List Noticia) (fs : List (List Noticia)) :
    ∀ n ∈ df ++ nuevasDe df fs,
      n.url ∈ (ejecutar_scraping df fs).1.map (fun m => m.url) := by
  intro n hn
  rw [ejecutar_fst]
  have hperm :=
    (List.perm_insertionSort descFecha
      (dropDuplicatesByUrl (df ++ nuevasDe df fs) [])).map (fun m => m.url)
  rw [hperm.mem_iff]
  rw [dropDup_urls _ [] n.url (by simp)]
  exact List.mem_map.mpr ⟨n, hn, rfl⟩

theorem ejecutar_urls_conocidas (df : List Noticia) (fs : List (List Noticia)) :
    ∀ f ∈ fs, ∀ n ∈ f, n.url ∈ (ejecutar_scraping df fs).1.map (fun m => m.url) := by
  intro f hf n hn
  have h1 : n.url ∈ (recorrerFuentes fs (df.map (fun m => m.url))).2 :=
    recorrerFuentes_conoce fs _ f n hf hn
  rw [recorrerFuentes_urls_iff] at h1
  rcases h1 with h1 | h1
  · obtain ⟨m, hm, hmu⟩ := List.mem_map.mp h1
    have := ejecutar_completa df fs m (List.mem_append_left _ hm)
    rw [hmu] at this
    exact this
  · obtain ⟨m, hm, hmu⟩ := List.mem_map.mp h1
    have := ejecutar_completa df fs m (List.mem_append_right _ hm)
    rw [hmu] at this
    exact this
/-- C1: after a run, the persisted record list has pairwise-distinct urls;
every persisted record is the first record carrying its url in the
concatenation of existing records followed by this run's admitted records
(so an existing record is never replaced by a new candidate with its url);
and every url of that concatenation is still represented. -/
theorem ejecutar_scraping_url_unico (df : List Noticia) (fuentes : List (List Noticia)) :
    ((ejecutar_scraping df fuentes).1.map (fun n => n.url)).Nodup ∧
    (∀ n ∈ (ejecutar_scraping df fuentes).1,
      (df ++ nuevasDe df fuentes).find? (fun m => m.url == n.url) = some n) ∧
    (∀ n ∈ df ++ nuevasDe df fuentes,
      n.url ∈ (ejecutar_scraping df fuentes).1.map (fun m => m.url)) :=
  ⟨ejecutar_nodup df fuentes, ejecutar_primera df fuentes, ejecutar_completa df fuentes⟩

/-- Witness for `ejecutar_scraping_url_unico`: a store holding `nVieja` and
a run surfacing `nNueva` with the same url keep exactly the old record. -/
theorem ejecutar_scraping_url_unico_witness :
    ((ejecutar_scraping [nVieja] [[nNueva]]).1.map (fun n => n.url)).Nodup ∧
    (([nVieja] ++ nuevasDe [nVieja] [[nNueva]]).find?
      (fun m => m.url == nVieja.url) = some nVieja) ∧
    nVieja.url ∈ (ejecutar_scraping [nVieja] [[nNueva]]).1.map (fun m => m.url) :=
  ⟨(ejecutar_scraping_url_unico [nVieja] [[nNueva]]).1,
   (ejecutar_scraping_url_unico [nVieja] [[nNueva]]).2.1 nVieja (by decide),
   (ejecutar_scraping_url_unico [nVieja] [[nNueva]]).2.2 nVieja (by decide)⟩

/-- C6: running the coordinator again on the store the first run persisted,
with the identical source snapshot, admits zero new records and leaves the
record set unchanged (up to the re-sort, a permutation); indeed every
candidate url of the snapshot is already among the persisted urls. -/
theorem ejecutar_scraping_idempotente (df : List Noticia) (fuentes : List (List Noticia)) :
    (ejecutar_scraping (ejecutar_scraping df fuentes).1 fuentes).2 = 0 ∧
    List.Perm (ejecutar_scraping (ejecutar_scraping df fuentes).1 fuentes).1
      (ejecutar_scraping df fuentes).1 ∧
    ∀ f ∈ fuentes, ∀ n ∈ f,
      n.url ∈ (ejecutar_scraping df fuentes).1.map (fun m => m.url) := by
  have hknown : ∀ f ∈ fuentes, ∀ n ∈ f,
      n.url ∈ (ejecutar_scraping df fuentes).1.map (fun m => m.url) :=
    ejecutar_urls_conocidas df fuentes
  have hrec := recorrerFuentes_todo_conocido fuentes
    ((ejecutar_scraping df fuentes).1.map (fun m => m.url)) hknown
  have hnuevas : nuevasDe (ejecutar_scraping df fuentes).1 fuentes = [] := by
    rw [nuevasDe, hrec]
  refine ⟨?_, ?_, hknown⟩
  · rw [ejecutar_snd, hnuevas]
    rfl
  · rw [ejecutar_fst (ejecutar_scraping df fuentes).1 fuentes, hnuevas, List.append_nil]
    rw [dropDup_fix _ [] (ejecutar_nodup df fuentes) (by simp)]
    exact List.perm_insertionSort _ _

/-- Witness for `ejecutar_scraping_idempotente` at a concrete store and
snapshot. -/
theorem ejecutar_scraping_idempotente_witness :
    (ejecutar_scraping (ejecutar_scraping [nVieja] [[nFresca]]).1 [[nFresca]]).2 = 0 ∧
    List.Perm (ejecutar_scraping (ejecutar_scraping [nVieja] [[nFresca]]).1 [[nFresca]]).1
      (ejecutar_scraping [nVieja] [[nFresca]]).1 ∧
    nFresca.url ∈ (ejecutar_scraping [nVieja] [[nFresca]]).1.map (fun m => m.url) :=
  ⟨(ejecutar_scraping_idempotente [nVieja] [[nFresca]]).1,
   (ejecutar_scraping_idempotente [nVieja] [[nFresca]]).2.1,
   (ejecutar_scraping_idempotente [nVieja] [[nFresca]]).2.2
     [nFresca] (by decide) nFresca (by decide)⟩

/-- C8 (amended): when every source contributes nothing (every fetch
failed), the run still completes with a newly-added count of zero, and the
persisted record set is the loaded set after the defensive first-wins
url dedup — which is exactly the loaded set whenever the loaded store has
no duplicate urls. -/
theorem ejecutar_scraping_fallo_total (df : List Noticia) (fuentes : List (List Noticia))
    (h : ∀ f ∈ fuentes, f = []) :
    (ejecutar_scraping df fuentes).2 = 0 ∧
    List.Perm (ejecutar_scraping df fuentes).1 (dropDuplicatesByUrl df []) ∧
    ((df.map (fun n => n.url)).Nodup → List.Perm (ejecutar_scraping df fuentes).1 df) := by
  have hnuevas : nuevasDe df fuentes = [] := by
    have hrec := recorrerFuentes_todo_conocido fuentes (df.map (fun n => n.url))
      (by intro f hf n hn; rw [h f hf] at hn; cases hn)
    rw [nuevasDe, hrec]
  refine ⟨?_, ?_, ?_⟩
  · rw [ejecutar_snd, hnuevas]
    rfl
  · rw [ejecutar_fst, hnuevas, List.append_nil]
    exact List.perm_insertionSort _ _
  · intro hnd
    rw [ejecutar_fst, hnuevas, List.append_nil]
    rw [dropDup_fix df [] hnd (by simp)]
    exact List.perm_insertionSort _ _

/-- C8 counterexample: if the loaded store itself carries two records with
the same url, a run in which every source fails does not rewrite the store
unchanged — the later duplicate is dropped by the defensive dedup pass, so
the persisted set is strictly smaller than the loaded set. -/
theorem ejecutar_scraping_fallo_contraejemplo :
    (∀ f ∈ ([[]] : List (List Noticia)), f = []) ∧
    nNueva ∈ ([nVieja, nNueva] : List Noticia) ∧
    ¬ nNueva ∈ (ejecutar_scraping [nVieja, nNueva] [[]]).1 :=
  ⟨by decide, by decide, by decide⟩

/-- Witness for `ejecutar_scraping_fallo_total`: a url-unique store passes
through a run with only failing sources unchanged up to permutation. -/
theorem ejecutar_scraping_fallo_total_witness :
    (ejecutar_scraping [nVieja, nFresca] [[], []]).2 = 0 ∧
    List.Perm (ejecutar_scraping [nVieja, nFresca] [[], []]).1
      (dropDuplicatesByUrl [nVieja, nFresca] []) ∧
    List.Perm (ejecutar_scraping [nVieja, nFresca] [[], []]).1 [nVieja, nFresca] :=
  ⟨(ejecutar_scraping_fallo_total [nVieja, nFresca] [[], []] (by decide)).1,
   (ejecutar_scraping_fallo_total [nVieja, nFresca] [[], []] (by decide)).2.1,
   (ejecutar_scraping_fallo_total [nVieja, nFresca] [[], []] (by decide)).2.2 (by decide)⟩

/-- C9: loading a store sheet that lacks the city column yields one record
per row, each with the sentinel city, and loading a nonexistent file yields
the empty record set; neither case is an error (the loader is total). -/
theorem cargar_excel_spec :
    (∀ hoja : Hoja, hoja.tiene_ciudad = false →
      (cargar_excel_existente (some hoja)).length = hoja.filas.length ∧
      ∀ n ∈ cargar_excel_existente (some hoja), n.ciudad = "Sin identificar".data) ∧
    cargar_excel_existente none = [] := by
  refine ⟨?_, rfl⟩
  intro hoja h
  simp only [cargar_excel_existente, h, Bool.false_eq_true, if_false]
  refine ⟨by simp, ?_⟩
  intro n hn
  obtain ⟨m, _, rfl⟩ := List.mem_map.mp hn
  rfl

/-- Witness for `cargar_excel_spec` on a concrete one-row sheet without the
city column. -/
theorem cargar_excel_spec_witness :
    (cargar_excel_existente (some { filas := [nVieja], tiene_ciudad := false })).length =
      ([nVieja] : List Noticia).length ∧
    ({ nVieja with ciudad := "Sin identificar".data } : Noticia).ciudad =
      "Sin identificar".data :=
  ⟨(cargar_excel_spec.1 { filas := [nVieja], tiene_ciudad := false } rfl).1,
   (cargar_excel_spec.1 { filas := [nVieja], tiene_ciudad := false } rfl).2
     { nVieja with ciudad := "Sin identificar".data } (by decide)⟩
